import Mathlib

/-!
Verification development for the `select` tool: the selection model
(src/src/config/selection.rs), the reconciliation engine
(`interactive_selection` in src/src/command/utils.rs), the expansion walker
(`walk_selected_files` in src/src/command/utils.rs), and the persisted config
(src/src/config/config.rs).

Paths are modelled as lists of characters (Rust `PathBuf` holds the path
string verbatim on the platform of interest; `display` returns it unchanged).
Filesystem-dependent collaborators (`fs::canonicalize`, `pathdiff::diff_paths`,
the ignore-aware directory walk, the external editor) are explicit parameters
bundled in a world structure, so every run of the engine is a pure function
of the world.
-/

/-- A filesystem path, modelled as its character string. -/
abbrev PathC := List Char

/-- Shorthand turning a string literal into a `PathC`. -/
def chars (s : String) : PathC := s.data

/-- Model of `SelectedPath` (src/src/config/selection.rs lines 27-31): one
selected path plus its recursion flag. -/
structure SelectedPath where
  path : PathC
  recursive : Bool
deriving DecidableEq, Repr

/-- Rust `s.starts_with(c)` for one character. -/
def startsWithChar (c : Char) (s : PathC) : Bool :=
  match s with
  | [] => false
  | a :: _ => a = c

/-- Model of `SelectedPath::from_str` (selection.rs lines 42-50): a leading
star means non-recursive and is stripped; otherwise the whole string is the
path and the entry is recursive. -/
def SelectedPath.fromStr (s : PathC) : SelectedPath :=
  let recursive := !(startsWithChar '*' s)
  let pathStr := if recursive then s else s.drop 1
  { path := pathStr, recursive := recursive }

/-- Model of the `FromStr` impl as a whole: the error type is
`std::convert::Infallible` (uninhabited, modelled by `Empty`) and the body
always returns `Ok`. -/
def SelectedPath.fromStrChecked (s : PathC) : Except Empty SelectedPath :=
  Except.ok (SelectedPath.fromStr s)

/-- Model of `SelectedPath::to_string` (selection.rs lines 54-60): the path
string, star-prefixed exactly when the entry is non-recursive. -/
def SelectedPath.toString (sp : SelectedPath) : PathC :=
  if sp.recursive then sp.path else '*' :: sp.path

/-- Plain lexicographic (byte-wise) comparison of strings, as `≤`. This is
the order of the specification's "lexicographic on the textual encoding". -/
def lexLe : PathC → PathC → Bool
  | [], _ => true
  | _ :: _, [] => false
  | a :: as, b :: bs => if a < b then true else if b < a then false else lexLe as bs

/-- Three-way byte-wise comparison of strings (`OsStr`'s `Ord`, used for one
path component). -/
def cmpChars : PathC → PathC → Ordering
  | [], [] => Ordering.eq
  | [], _ :: _ => Ordering.lt
  | _ :: _, [] => Ordering.gt
  | a :: as, b :: bs =>
    if a < b then Ordering.lt else if b < a then Ordering.gt else cmpChars as bs

/-- Split a path string at the separator into its components; the leading
empty component of an absolute path plays the role of `Component::RootDir`. -/
def splitSep : PathC → List PathC
  | [] => [[]]
  | c :: rest =>
    if c = '/' then [] :: splitSep rest
    else
      match splitSep rest with
      | [] => [[c]]
      | s :: ss => (c :: s) :: ss

/-- Lexicographic comparison of component lists, components compared
byte-wise: `Path`'s `Ord` compares `components()` this way. -/
def cmpSegs : List PathC → List PathC → Ordering
  | [], [] => Ordering.eq
  | [], _ :: _ => Ordering.lt
  | _ :: _, [] => Ordering.gt
  | a :: as, b :: bs =>
    match cmpChars a b with
    | Ordering.eq => cmpSegs as bs
    | o => o

/-- Model of `PathBuf`'s `Ord`: component-wise comparison of the
separator-split path (`/r/a/b` sorts before `/r/a.txt`, since the component
`a` precedes `a.txt`, although byte-wise `.` precedes `/`). The paths the
program compares are canonical absolute paths or their joins, which contain
no duplicate separators and no dot components, so the `components()`
normalization is the plain split. -/
def pathCmp (x y : PathC) : Ordering := cmpSegs (splitSep x) (splitSep y)

/-- Model of the derived `Ord` on `SelectedPath` (selection.rs line 27):
fields are compared in declaration order, the `path` field by `PathBuf`'s
component-wise order first, then `recursive` (`false < true`). -/
def SelectedPath.le (x y : SelectedPath) : Bool :=
  match pathCmp x.path y.path with
  | Ordering.lt => true
  | Ordering.gt => false
  | Ordering.eq => !x.recursive || y.recursive

/-- The derived order as a `Prop`-valued relation, for sorting lemmas. -/
def SelectedPath.leP (x y : SelectedPath) : Prop := SelectedPath.le x y = true

instance : DecidableRel SelectedPath.leP :=
  fun x y => inferInstanceAs (Decidable (SelectedPath.le x y = true))

/-- The specification's total order on `SelectedPath` (spec §3): lexicographic
on the textual encoding. Stated from the spec's words, to be compared with the
derived order the code actually sorts by. -/
def specEncodingLe (x y : SelectedPath) : Bool := lexLe x.toString y.toString

/-- Model of `PathBuf::join(base, p)`: an absolute `p` replaces the base,
otherwise the two are joined with a separator. -/
def pathJoin (base p : PathC) : PathC :=
  if startsWithChar '/' p then p else base ++ '/' :: p

theorem cmpChars_swap (a b : PathC) : cmpChars b a = (cmpChars a b).swap := by
  induction a generalizing b with
  | nil => cases b <;> rfl
  | cons x xs ih =>
    cases b with
    | nil => rfl
    | cons y ys =>
      unfold cmpChars
      rcases lt_trichotomy x y with h | h | h
      · rw [if_neg (lt_asymm h), if_pos h, if_pos h]
        rfl
      · subst h
        rw [if_neg (lt_irrefl x), if_neg (lt_irrefl x), if_neg (lt_irrefl x),
          if_neg (lt_irrefl x)]
        exact ih ys
      · rw [if_pos h, if_neg (lt_asymm h), if_pos h]
        rfl

theorem cmpChars_eq_iff {a b : PathC} : cmpChars a b = Ordering.eq ↔ a = b := by
  induction a generalizing b with
  | nil =>
    cases b with
    | nil => simp [cmpChars]
    | cons y ys => simp [cmpChars]
  | cons x xs ih =>
    cases b with
    | nil => simp [cmpChars]
    | cons y ys =>
      unfold cmpChars
      rcases lt_trichotomy x y with h | h | h
      · rw [if_pos h]
        simp [ne_of_lt h]
      · subst h
        rw [if_neg (lt_irrefl x), if_neg (lt_irrefl x)]
        simp [ih]
      · rw [if_neg (lt_asymm h), if_pos h]
        simp [(ne_of_lt h).symm]

theorem cmpChars_lt_trans {a b c : PathC} (h1 : cmpChars a b = Ordering.lt)
    (h2 : cmpChars b c = Ordering.lt) : cmpChars a c = Ordering.lt := by
  induction a generalizing b c with
  | nil =>
    cases c with
    | nil =>
      cases b with
      | nil => exact h2
      | cons y ys => simp [cmpChars] at h2
    | cons z zs => rfl
  | cons x xs ih =>
    cases b with
    | nil => simp [cmpChars] at h1
    | cons y ys =>
      cases c with
      | nil => simp [cmpChars] at h2
      | cons z zs =>
        unfold cmpChars at h1 h2 ⊢
        rcases lt_trichotomy x y with hxy | hxy | hxy
        · rcases lt_trichotomy y z with hyz | hyz | hyz
          · rw [if_pos (lt_trans hxy hyz)]
          · subst hyz
            rw [if_pos hxy]
          · rw [if_neg (lt_asymm hyz), if_pos hyz] at h2
            simp at h2
        · subst hxy
          rw [if_neg (lt_irrefl x), if_neg (lt_irrefl x)] at h1
          rcases lt_trichotomy x z with hxz | hxz | hxz
          · rw [if_pos hxz]
          · subst hxz
            rw [if_neg (lt_irrefl x), if_neg (lt_irrefl x)] at h2 ⊢
            exact ih h1 h2
          · rw [if_neg (lt_asymm hxz), if_pos hxz] at h2
            simp at h2
        · rw [if_neg (lt_asymm hxy), if_pos hxy] at h1
          simp at h1

theorem cmpSegs_swap (a b : List PathC) : cmpSegs b a = (cmpSegs a b).swap := by
  induction a generalizing b with
  | nil => cases b <;> rfl
  | cons x xs ih =>
    cases b with
    | nil => rfl
    | cons y ys =>
      unfold cmpSegs
      rw [cmpChars_swap x y]
      cases cmpChars x y with
      | lt => rfl
      | gt => rfl
      | eq => exact ih ys

theorem cmpSegs_eq_iff {a b : List PathC} : cmpSegs a b = Ordering.eq ↔ a = b := by
  induction a generalizing b with
  | nil =>
    cases b with
    | nil => simp [cmpSegs]
    | cons y ys => simp [cmpSegs]
  | cons x xs ih =>
    cases b with
    | nil => simp [cmpSegs]
    | cons y ys =>
      unfold cmpSegs
      cases hc : cmpChars x y with
      | lt =>
        have : ¬x = y := fun h => by rw [cmpChars_eq_iff.mpr h] at hc; cases hc
        simp [this]
      | gt =>
        have : ¬x = y := fun h => by rw [cmpChars_eq_iff.mpr h] at hc; cases hc
        simp [this]
      | eq =>
        have hx : x = y := cmpChars_eq_iff.mp hc
        simp [hx, ih]

theorem cmpSegs_lt_trans {a b c : List PathC} (h1 : cmpSegs a b = Ordering.lt)
    (h2 : cmpSegs b c = Ordering.lt) : cmpSegs a c = Ordering.lt := by
  induction a generalizing b c with
  | nil =>
    cases c with
    | nil =>
      cases b with
      | nil => exact h2
      | cons y ys => simp [cmpSegs] at h2
    | cons z zs => rfl
  | cons x xs ih =>
    cases b with
    | nil => simp [cmpSegs] at h1
    | cons y ys =>
      cases c with
      | nil => simp [cmpSegs] at h2
      | cons z zs =>
        unfold cmpSegs at h1 h2 ⊢
        cases hxy : cmpChars x y with
        | gt => rw [hxy] at h1; simp at h1
        | lt =>
          rw [hxy] at h1
          cases hyz : cmpChars y z with
          | gt => rw [hyz] at h2; simp at h2
          | lt => rw [cmpChars_lt_trans hxy hyz]
          | eq =>
            have hy : y = z := cmpChars_eq_iff.mp hyz
            subst hy
            rw [hxy]
        | eq =>
          rw [hxy] at h1
          have hx : x = y := cmpChars_eq_iff.mp hxy
          subst hx
          cases hyz : cmpChars x z with
          | gt => rw [hyz] at h2; simp at h2
          | lt => rfl
          | eq =>
            rw [hyz] at h2
            exact ih h1 h2

theorem pathCmp_swap (x y : PathC) : pathCmp y x = (pathCmp x y).swap := by
  unfold pathCmp
  exact cmpSegs_swap _ _

instance : IsTotal SelectedPath SelectedPath.leP := by
  constructor
  intro x y
  unfold SelectedPath.leP SelectedPath.le
  rw [pathCmp_swap x.path y.path]
  cases h : pathCmp x.path y.path with
  | lt => left; rfl
  | gt => right; rfl
  | eq => cases x.recursive <;> cases y.recursive <;> simp [Ordering.swap]

instance : IsTrans SelectedPath SelectedPath.leP := by
  constructor
  intro x y z h1 h2
  unfold SelectedPath.leP SelectedPath.le at h1 h2 ⊢
  cases hxy : pathCmp x.path y.path with
  | gt => rw [hxy] at h1; simp at h1
  | lt =>
    rw [hxy] at h1
    cases hyz : pathCmp y.path z.path with
    | gt => rw [hyz] at h2; simp at h2
    | lt =>
      have : pathCmp x.path z.path = Ordering.lt := by
        unfold pathCmp at hxy hyz ⊢
        exact cmpSegs_lt_trans hxy hyz
      rw [this]
    | eq =>
      have heq : splitSep y.path = splitSep z.path := by
        unfold pathCmp at hyz
        exact cmpSegs_eq_iff.mp hyz
      have : pathCmp x.path z.path = Ordering.lt := by
        unfold pathCmp at hxy ⊢
        rw [← heq]
        exact hxy
      rw [this]
  | eq =>
    rw [hxy] at h1
    have heqxy : splitSep x.path = splitSep y.path := by
      unfold pathCmp at hxy
      exact cmpSegs_eq_iff.mp hxy
    cases hyz : pathCmp y.path z.path with
    | gt => rw [hyz] at h2; simp at h2
    | lt =>
      have : pathCmp x.path z.path = Ordering.lt := by
        unfold pathCmp at hyz ⊢
        rw [heqxy]
        exact hyz
      rw [this]
    | eq =>
      rw [hyz] at h2
      have hpz : pathCmp x.path z.path = Ordering.eq := by
        unfold pathCmp at hyz ⊢
        rw [heqxy]
        exact hyz
      rw [hpz]
      have h1b : (!x.recursive || y.recursive) = true := h1
      have h2b : (!y.recursive || z.recursive) = true := h2
      show (!x.recursive || z.recursive) = true
      cases hx : x.recursive with
      | false => rfl
      | true =>
        rw [hx] at h1b
        have hy : y.recursive = true := by simpa using h1b
        rw [hy] at h2b
        have hz : z.recursive = true := by simpa using h2b
        rw [hz]
        rfl

/-- C1: for every path string not starting with a star and both flag values,
decoding the textual encoding of the entry yields the entry again: the
star-prefix encoding is lossless on such paths. -/
theorem selectedPath_roundtrip (p : PathC) (r : Bool)
    (h : startsWithChar '*' p = false) :
    SelectedPath.fromStr (SelectedPath.toString (SelectedPath.mk p r)) =
      SelectedPath.mk p r := by
  cases r with
  | true => simp [SelectedPath.toString, SelectedPath.fromStr, h]
  | false => simp [SelectedPath.toString, SelectedPath.fromStr, startsWithChar]

/-- C1 witness: the round trip at the concrete path `docs`, both flags. -/
theorem selectedPath_roundtrip_witness :
    startsWithChar '*' (chars "docs") = false ∧
      SelectedPath.fromStr (SelectedPath.toString (SelectedPath.mk (chars "docs") false)) =
        SelectedPath.mk (chars "docs") false ∧
      SelectedPath.fromStr (SelectedPath.toString (SelectedPath.mk (chars "docs") true)) =
        SelectedPath.mk (chars "docs") true :=
  ⟨by decide, selectedPath_roundtrip (chars "docs") false (by decide),
    selectedPath_roundtrip (chars "docs") true (by decide)⟩

/-- C10: decoding a `SelectedPath` is total (the `FromStr` impl always returns
`Ok`; its error type is uninhabited), and encoding is a left inverse of
decoding on every string, including strings starting with stars and the empty
string. -/
theorem selectedPath_decode_total_encode_left_inverse :
    (∀ s : PathC, SelectedPath.fromStrChecked s = Except.ok (SelectedPath.fromStr s)) ∧
      (∀ s : PathC, SelectedPath.toString (SelectedPath.fromStr s) = s) := by
  constructor
  · intro s; rfl
  · intro s
    cases s with
    | nil => rfl
    | cons c t =>
      by_cases h : c = '*'
      · subst h
        simp [SelectedPath.fromStr, startsWithChar, SelectedPath.toString]
      · simp [SelectedPath.fromStr, startsWithChar, h, SelectedPath.toString]

/-- Errors surfaced by `interactive_selection` (modelling the distinct
`eyre` failure shapes of src/src/command/utils.rs). `parseErrors` carries the
decoded path of every editor line whose canonicalization failed, in order. -/
inductive RecErr where
  | rootNotFound (p : PathC)
  | relativizeFailed (p : PathC)
  | parseErrors (ps : List PathC)
  | walkFailed (p : PathC)
deriving DecidableEq, Repr

/-- Short-circuiting monadic map over `Except`, modelling
`collect::<Result<_>>()` on a Rust iterator: the first error aborts. -/
def exceptMapM {ε α β : Type} (f : α → Except ε β) : List α → Except ε (List β)
  | [] => Except.ok []
  | a :: as =>
    match f a with
    | Except.error e => Except.error e
    | Except.ok b =>
      match exceptMapM f as with
      | Except.error e => Except.error e
      | Except.ok bs => Except.ok (b :: bs)

instance exceptDecEq {ε α : Type} [DecidableEq ε] [DecidableEq α] :
    DecidableEq (Except ε α) := fun a b =>
  match a, b with
  | Except.ok x, Except.ok y =>
    if h : x = y then isTrue (congrArg Except.ok h)
    else isFalse (fun hh => h (Except.ok.inj hh))
  | Except.error x, Except.error y =>
    if h : x = y then isTrue (congrArg Except.error h)
    else isFalse (fun hh => h (Except.error.inj hh))
  | Except.ok _, Except.error _ => isFalse (fun hh => Except.noConfusion hh)
  | Except.error _, Except.ok _ => isFalse (fun hh => Except.noConfusion hh)

/-- Lookup in the association-list model of `HashMap<PathBuf, bool>`. -/
def mapLookup : List (PathC × Bool) → PathC → Option Bool
  | [], _ => none
  | e :: m, k => if e.1 = k then some e.2 else mapLookup m k

/-- Insert-with-overwrite, modelling `HashMap::insert` / `collect()` on
key-value pairs (a later pair with the same key replaces the earlier one). -/
def mapInsert (m : List (PathC × Bool)) (k : PathC) (v : Bool) : List (PathC × Bool) :=
  if (mapLookup m k).isSome then
    m.map (fun e => if e.1 = k then (k, v) else e)
  else m ++ [(k, v)]

/-- Model of `final_paths.entry(path).or_insert(v)` (utils.rs lines 130 and
151): insert only when the key is absent; an existing binding is untouched. -/
def orInsert (m : List (PathC × Bool)) (k : PathC) (v : Bool) : List (PathC × Bool) :=
  if (mapLookup m k).isSome then m else m ++ [(k, v)]

/-- Step 1 of `interactive_selection` (utils.rs lines 107-113): collect the
previous selection, with paths made absolute against the repository root, into
a map from path to recursive flag. `prev` is the iteration order of the
persisted `HashSet`. -/
def selectionToMap (gitRoot : PathC) (prev : List SelectedPath) : List (PathC × Bool) :=
  prev.foldl (fun m sp => mapInsert m (pathJoin gitRoot sp.path) sp.recursive) []

/-- Step 2 of `interactive_selection` (utils.rs lines 119-125): canonicalize
every CLI root, failing on the first root whose canonicalization fails. -/
def canonicalizeRoots (canon : PathC → Option PathC) (roots : List PathC) :
    Except RecErr (List PathC) :=
  exceptMapM
    (fun p =>
      match canon p with
      | some c => Except.ok c
      | none => Except.error (RecErr.rootNotFound p))
    roots

/-- Fold a list of paths into the candidate map with `or_insert(true)`. -/
def addAll (m : List (PathC × Bool)) (ps : List PathC) : List (PathC × Bool) :=
  ps.foldl (fun acc p => orInsert acc p true) m

/-- Steps 2-3 of `interactive_selection` (utils.rs lines 127-155): CLI roots
are or-inserted as recursive, then — only when there is at least one root —
every directory discovered by the walk is or-inserted as recursive. -/
def buildCandidates (finalPaths0 : List (PathC × Bool)) (croots dirs : List PathC) :
    List (PathC × Bool) :=
  let afterRoots := addAll finalPaths0 croots
  if croots.isEmpty then afterRoots else addAll afterRoots dirs

/-- Step 4 of `interactive_selection` (utils.rs lines 162-172): turn the
candidate map into `SelectedPath` values, partition into originally-selected
(path present in the persisted map, flags already carried over) versus newly
suggested, and sort each group by the derived order (`sort_unstable`). -/
def sortedGroups (finalPaths0 finalPaths : List (PathC × Bool)) :
    List SelectedPath × List SelectedPath :=
  let originally := finalPaths0.map Prod.fst
  let allPaths := finalPaths.map (fun e => SelectedPath.mk e.1 e.2)
  let part := allPaths.partition (fun p => originally.contains p.path)
  (part.1.insertionSort SelectedPath.leP, part.2.insertionSort SelectedPath.leP)

/-- The filesystem- and editor-facing collaborators of the reconciliation
engine, as pure functions: `canon` is `fs::canonicalize` (`none` = failure),
`walkDirs` the directory-discovery walk over the canonical roots, `diff` is
`pathdiff::diff_paths`, and `editor` maps the rendered buffer (a list of
lines) to the user's edited buffer. -/
structure ReconWorld where
  canon : PathC → Option PathC
  walkDirs : List PathC → List PathC
  diff : PathC → PathC → Option PathC
  cwd : PathC
  gitRoot : PathC
  editor : List PathC → List PathC

/-- Render one entry relative to the current working directory and encode it
(utils.rs lines 182-191). -/
def toRelativeLine (w : ReconWorld) (sp : SelectedPath) : Except RecErr PathC :=
  match w.diff sp.path w.cwd with
  | some rel => Except.ok (SelectedPath.toString (SelectedPath.mk rel sp.recursive))
  | none => Except.error (RecErr.relativizeFailed sp.path)

/-- The fixed instructional header (utils.rs lines 176-178), as lines: three
comment lines and the blank line produced by the trailing double newline. -/
def headerLines : List PathC :=
  [ chars "# Lines starting with '#' are ignored.",
    chars "# To select a path recursively, use its name: path/to/dir",
    chars "# To select a path non-recursively (only files in the directory), prefix with '*': *path/to/dir",
    [] ]

/-- The comment marker written before each newly-suggested line
(utils.rs line 202). -/
def commentMarker : PathC := chars "# "

/-- Steps 4 continued (utils.rs lines 180-203): the editor buffer as a list of
lines — header, originally-selected lines, a blank separator when both groups
are non-empty, then the commented newly-suggested lines. Relativization errors
propagate, selected group first. -/
def renderLines (w : ReconWorld) (groups : List SelectedPath × List SelectedPath) :
    Except RecErr (List PathC) :=
  match exceptMapM (toRelativeLine w) groups.1 with
  | Except.error e => Except.error e
  | Except.ok selLines =>
    match exceptMapM (toRelativeLine w) groups.2 with
    | Except.error e => Except.error e
    | Except.ok newLines =>
      Except.ok
        (headerLines ++ selLines ++
          (if !groups.1.isEmpty && !groups.2.isEmpty then [([] : PathC)] else []) ++
          newLines.map (fun l => commentMarker ++ l))

/-- Rust `str::trim` on the character-list model. -/
def trimChars (l : PathC) : PathC :=
  ((l.dropWhile Char.isWhitespace).reverse.dropWhile Char.isWhitespace).reverse

/-- Model of `line.starts_with('#')`. -/
def startsWithHash (l : PathC) : Bool := startsWithChar '#' l

/-- The parse filter (utils.rs line 214): keep lines that do not start with
the comment character and are not blank after trimming. -/
def keptLine (l : PathC) : Bool := !startsWithHash l && !(trimChars l).isEmpty

/-- Parse one kept line (utils.rs lines 215-226): trim, decode as a
`SelectedPath`, canonicalize the decoded path; on failure the error names the
decoded path. -/
def parseLine (canon : PathC → Option PathC) (line : PathC) : Except PathC SelectedPath :=
  let t := trimChars line
  let sp := SelectedPath.fromStr t
  match canon sp.path with
  | some c => Except.ok (SelectedPath.mk c sp.recursive)
  | none => Except.error sp.path

/-- Model of `HashSet::insert` on the set's insertion-order list view. -/
def setInsert (l : List SelectedPath) (x : SelectedPath) : List SelectedPath :=
  if l.contains x then l else l ++ [x]

/-- The parse loop (utils.rs lines 209-237): successfully parsed entries are
inserted into the set, every failure is pushed onto the error list. -/
def collectParsed (canon : PathC → Option PathC) (lines : List PathC) :
    List SelectedPath × List PathC :=
  (lines.filter keptLine).foldl
    (fun acc line =>
      match parseLine canon line with
      | Except.ok sp => (setInsert acc.1 sp, acc.2)
      | Except.error p => (acc.1, acc.2 ++ [p]))
    ([], [])

/-- Convert one parsed absolute entry back to a repo-relative entry
(utils.rs lines 242-248). -/
def relativizeOne (w : ReconWorld) (p : SelectedPath) : Except RecErr SelectedPath :=
  match w.diff p.path w.gitRoot with
  | some rel => Except.ok (SelectedPath.mk rel p.recursive)
  | none => Except.error (RecErr.relativizeFailed p.path)

/-- Step 10 (utils.rs lines 240-250): convert every parsed absolute entry back
to a repo-relative entry, failing on the first path that cannot be
relativized. -/
def relativizeAll (w : ReconWorld) (sps : List SelectedPath) :
    Except RecErr (List SelectedPath) :=
  exceptMapM (relativizeOne w) sps

/-- Steps 8-10 of `interactive_selection` (utils.rs lines 208-267): parse the
editor result; when any line failed canonicalization the whole phase fails
carrying every collected error, otherwise relativize and return the set. -/
def parsePhase (w : ReconWorld) (result : List PathC) : Except RecErr (Finset SelectedPath) :=
  let pe := collectParsed w.canon result
  if pe.2.isEmpty then
    match relativizeAll w pe.1 with
    | Except.error e => Except.error e
    | Except.ok rels => Except.ok rels.toFinset
  else Except.error (RecErr.parseErrors pe.2)

/-- Model of `interactive_selection` (utils.rs lines 102-268) as a pure
function of the world, the CLI roots, and the iteration order of the
previously persisted selection. -/
def interactiveSelection (w : ReconWorld) (roots : List PathC) (prev : List SelectedPath) :
    Except RecErr (Finset SelectedPath) :=
  let finalPaths0 := selectionToMap w.gitRoot prev
  match canonicalizeRoots w.canon roots with
  | Except.error e => Except.error e
  | Except.ok croots =>
    let finalPaths := buildCandidates finalPaths0 croots (w.walkDirs croots)
    if finalPaths.isEmpty then Except.ok (∅ : Finset SelectedPath)
    else
      match renderLines w (sortedGroups finalPaths0 finalPaths) with
      | Except.error e => Except.error e
      | Except.ok buf => parsePhase w (w.editor buf)

/-- The config writes performed by `Sel::run` (src/src/command/sel.rs lines
51-66): the `?` on the select call propagates failure before `config.write()`,
so a write happens exactly when `interactive_selection` succeeds, and it
stores the returned selection. -/
def selRunWrites (w : ReconWorld) (roots : List PathC) (prev : List SelectedPath) :
    List (Finset SelectedPath) :=
  match interactiveSelection w roots prev with
  | Except.ok s => [s]
  | Except.error _ => []

mutual

/-- A filesystem subtree: a regular file or a directory with named children. -/
inductive FsTree where
  | file : FsTree
  | dir (children : FsForest) : FsTree

/-- The ordered children of a directory: name plus subtree each. -/
inductive FsForest where
  | nil : FsForest
  | cons (name : PathC) (t : FsTree) (rest : FsForest) : FsForest

end

/-- Decrement an optional depth budget. -/
def decLimit (limit : Option Nat) : Option Nat := limit.map (fun n => n - 1)

mutual

/-- Model of the `ignore::WalkBuilder` walk rooted at path `p` with tree `t`:
yields `(path, is_file)` entries depth-first. The root itself is always
yielded; each child whose path matches the ignore predicate is pruned (never
yielded, never descended into); `limit = some d` models `max_depth(Some(d))`
(entries deeper than `d` below the root are not yielded). -/
def walkTree (ign : PathC → Bool) (limit : Option Nat) (p : PathC) : FsTree → List (PathC × Bool)
  | FsTree.file => [(p, true)]
  | FsTree.dir cs =>
    (p, false) :: (if limit = some 0 then [] else walkForest ign (decLimit limit) p cs)

/-- Walk the children of a directory at path `p`. -/
def walkForest (ign : PathC → Bool) (limit : Option Nat) (p : PathC) : FsForest → List (PathC × Bool)
  | FsForest.nil => []
  | FsForest.cons n t rest =>
    (if ign (pathJoin p n) then [] else walkTree ign limit (pathJoin p n) t) ++
      walkForest ign limit p rest

end

/-- The filesystem collaborators of the expansion walker: `fsAt` gives the
subtree rooted at an absolute path (`none` = the walk at that root fails),
`ign` the combined ignore rules, `diff` is `pathdiff::diff_paths`. -/
structure ExpWorld where
  fsAt : PathC → Option FsTree
  ign : PathC → Bool
  diff : PathC → PathC → Option PathC
  cwd : PathC
  gitRoot : PathC

/-- The per-entry body of `walk_selected_files` (utils.rs lines 36-62): build
the walk with `max_depth(Some(1))` exactly when the entry is non-recursive,
keep entries whose file type is a regular file, and pair each with its path
relative to the current working directory. The result lists the callback
invocations `(absolute, relative)` for this entry, in walk order. -/
def fileCallbacks (w : ExpWorld) (sp : SelectedPath) : Except RecErr (List (PathC × PathC)) :=
  match w.fsAt sp.path with
  | none => Except.error (RecErr.walkFailed sp.path)
  | some t =>
    exceptMapM
      (fun q =>
        match w.diff q w.cwd with
        | some rel => Except.ok (q, rel)
        | none => Except.error (RecErr.relativizeFailed q))
      (((walkTree w.ign (if sp.recursive then none else some 1) sp.path t).filter
          (fun e => e.2)).map Prod.fst)

/-- Model of `walk_selected_files` (utils.rs lines 22-66): entries (in the
iteration order `selOrder` of the selection set) are made absolute against the
repository root, then walked one after the other; the result is the full
ordered list of callback invocations. -/
def walkSelectedFiles (w : ExpWorld) (selOrder : List SelectedPath) :
    Except RecErr (List (PathC × PathC)) :=
  match exceptMapM (fileCallbacks w)
      (selOrder.map (fun p => SelectedPath.mk (pathJoin w.gitRoot p.path) p.recursive)) with
  | Except.ok ls => Except.ok ls.flatten
  | Except.error e => Except.error e

/-- The regular files that are direct children of a directory with children
`cs` at path `p`, in order. -/
def directChildFiles (p : PathC) : FsForest → List PathC
  | FsForest.nil => []
  | FsForest.cons n t rest =>
    (match t with
      | FsTree.file => [pathJoin p n]
      | FsTree.dir _ => []) ++ directChildFiles p rest

mutual

/-- Every regular file in the subtree rooted at path `p`, depth-first. -/
def subtreeFiles (p : PathC) : FsTree → List PathC
  | FsTree.file => [p]
  | FsTree.dir cs => subtreeForestFiles p cs

/-- Every regular file below the children `cs` of the directory at `p`. -/
def subtreeForestFiles (p : PathC) : FsForest → List PathC
  | FsForest.nil => []
  | FsForest.cons n t rest => subtreeFiles (pathJoin p n) t ++ subtreeForestFiles p rest

end

/-- Model of `Config` (src/src/config/config.rs lines 32-35): a single
optional selection field. -/
structure ConfigM where
  selection : Option (Finset SelectedPath)
deriving DecidableEq

/-- The possible outcomes of `fs::read` on the config file. A present file
carries the result of the (external) `toml` crate's `from_slice` on its
bytes: either the structured shape the `Deserialize` impls of src consume —
an optional list of entry strings — or a parse error, which `Config::read`
propagates (config.rs line 65). -/
inductive ReadOutcome where
  | notFound : ReadOutcome
  | ioError (msg : PathC) : ReadOutcome
  | content (parsed : Except PathC (Option (List PathC))) : ReadOutcome

/-- Failure of `Config::read`: an I/O failure other than not-found, or the
toml parse failure of a present file. -/
inductive ReadErr where
  | ioFailed (msg : PathC)
  | parseFailed (msg : PathC)
deriving DecidableEq, Repr

/-- Model of `Config::read` (config.rs lines 48-68): a missing file yields the
default config (selection field absent); any other I/O error fails; a present
file that the toml layer cannot parse fails with "failed to parse config
file"; a present well-formed file decodes through the `Deserialize` impls of
selection.rs — each entry string is parsed with `from_str`, which cannot
fail — into a set. -/
def configRead (r : ReadOutcome) : Except ReadErr ConfigM :=
  match r with
  | ReadOutcome.notFound => Except.ok { selection := none }
  | ReadOutcome.ioError m => Except.error (ReadErr.ioFailed m)
  | ReadOutcome.content (Except.error e) => Except.error (ReadErr.parseFailed e)
  | ReadOutcome.content (Except.ok sel) =>
    Except.ok { selection := sel.map (fun entries => (entries.map SelectedPath.fromStr).toFinset) }

/-- C9 counterexample: a present but malformed config file makes
`Config::read` fail with a toml parse error (config.rs line 65) — a failure
that is neither file-not-found (which succeeds with the default config) nor
an I/O failure — so "reading fails only on I/O errors other than
file-not-found" is false of the code. -/
theorem configRead_parse_failure :
    configRead (ReadOutcome.content (Except.error (chars "failed to parse config file"))) =
        Except.error (ReadErr.parseFailed (chars "failed to parse config file")) ∧
      ReadErr.parseFailed (chars "failed to parse config file") ≠
        ReadErr.ioFailed (chars "failed to parse config file") ∧
      configRead (ReadOutcome.content (Except.error (chars "failed to parse config file"))) ≠
        configRead ReadOutcome.notFound := by
  refine ⟨rfl, by decide, by decide⟩

/-- C9 (amended): reading the config distinguishes "no selection yet" from
"empty selection": a missing file succeeds with the selection field absent,
any other I/O error fails, an empty selection list decodes to a
present-but-empty selection distinct from an absent one, and a present
well-formed file always decodes (the entry parser is infallible) — while a
present file that fails toml parsing makes reading fail with a parse error,
so reading fails on I/O errors other than not-found and on malformed
present files. -/
theorem configRead_semantics :
    configRead ReadOutcome.notFound = Except.ok { selection := none } ∧
      (∀ m, configRead (ReadOutcome.ioError m) = Except.error (ReadErr.ioFailed m)) ∧
      configRead (ReadOutcome.content (Except.ok (some []))) =
        Except.ok { selection := some (∅ : Finset SelectedPath) } ∧
      ({ selection := some (∅ : Finset SelectedPath) } : ConfigM) ≠ { selection := none } ∧
      (∀ sel, ∃ c, configRead (ReadOutcome.content (Except.ok sel)) = Except.ok c) ∧
      (∀ e, configRead (ReadOutcome.content (Except.error e)) =
        Except.error (ReadErr.parseFailed e)) := by
  refine ⟨rfl, fun m => rfl, rfl, by simp, fun sel => ⟨_, rfl⟩, fun e => rfl⟩

theorem mapLookup_append_some {m m2 : List (PathC × Bool)} {k : PathC} {b : Bool}
    (h : mapLookup m k = some b) : mapLookup (m ++ m2) k = some b := by
  induction m with
  | nil => simp [mapLookup] at h
  | cons e t ih =>
    by_cases he : e.1 = k
    · simpa [mapLookup, he] using h
    · rw [List.cons_append]
      simp only [mapLookup, he, if_false] at h ⊢
      exact ih h

theorem mapLookup_snoc_self {m : List (PathC × Bool)} {k : PathC} (v : Bool)
    (h : mapLookup m k = none) : mapLookup (m ++ [(k, v)]) k = some v := by
  induction m with
  | nil => simp [mapLookup]
  | cons e t ih =>
    by_cases he : e.1 = k
    · simp [mapLookup, he] at h
    · simp only [mapLookup, he, if_false] at h
      rw [List.cons_append]
      simp only [mapLookup, he, if_false]
      exact ih h

theorem mapLookup_snoc_other {m : List (PathC × Bool)} {k p : PathC} (v : Bool)
    (h : mapLookup m k = none) (hp : p ≠ k) : mapLookup (m ++ [(p, v)]) k = none := by
  induction m with
  | nil => simp [mapLookup, hp]
  | cons e t ih =>
    by_cases he : e.1 = k
    · simp [mapLookup, he] at h
    · simp only [mapLookup, he, if_false] at h
      rw [List.cons_append]
      simp only [mapLookup, he, if_false]
      exact ih h

theorem mapLookup_eq_none_iff {m : List (PathC × Bool)} {k : PathC} :
    mapLookup m k = none ↔ k ∉ m.map Prod.fst := by
  induction m with
  | nil => simp [mapLookup]
  | cons e t ih =>
    by_cases he : e.1 = k
    · simp [mapLookup, he]
    · have hk : ¬k = e.1 := fun hh => he hh.symm
      simp [mapLookup, he, ih, hk]

theorem orInsert_lookup_some {m : List (PathC × Bool)} {k : PathC} {b : Bool}
    (p : PathC) (v : Bool) (h : mapLookup m k = some b) :
    mapLookup (orInsert m p v) k = some b := by
  unfold orInsert
  split
  · exact h
  · exact mapLookup_append_some h

theorem orInsert_lookup_none_other {m : List (PathC × Bool)} {k p : PathC} (v : Bool)
    (h : mapLookup m k = none) (hp : p ≠ k) : mapLookup (orInsert m p v) k = none := by
  unfold orInsert
  split
  · exact h
  · exact mapLookup_snoc_other v h hp

theorem addAll_lookup_some {ps : List PathC} {m : List (PathC × Bool)} {k : PathC} {b : Bool}
    (h : mapLookup m k = some b) : mapLookup (addAll m ps) k = some b := by
  induction ps generalizing m with
  | nil => exact h
  | cons p rest ih =>
    unfold addAll at ih ⊢
    rw [List.foldl_cons]
    exact ih (orInsert_lookup_some p true h)

theorem addAll_lookup_mem_none {ps : List PathC} {m : List (PathC × Bool)} {k : PathC}
    (hk : k ∈ ps) (h : mapLookup m k = none) : mapLookup (addAll m ps) k = some true := by
  induction ps generalizing m with
  | nil => cases hk
  | cons p rest ih =>
    unfold addAll at ih ⊢
    rw [List.foldl_cons]
    by_cases hp : p = k
    · subst hp
      have h1 : orInsert m p true = m ++ [(p, true)] := by
        unfold orInsert
        rw [h]
        rfl
      rw [h1]
      have h2 : mapLookup (m ++ [(p, true)]) p = some true := mapLookup_snoc_self true h
      have h3 : mapLookup (addAll (m ++ [(p, true)]) rest) p = some true :=
        addAll_lookup_some h2
      unfold addAll at h3
      exact h3
    · have hk2 : k ∈ rest := by
        cases hk with
        | head => exact absurd rfl hp
        | tail _ hmem => exact hmem
      exact ih hk2 (orInsert_lookup_none_other true h hp)

theorem addAll_lookup_none_cases {ps : List PathC} {m : List (PathC × Bool)} {k : PathC}
    (h : mapLookup m k = none) :
    mapLookup (addAll m ps) k = none ∨ mapLookup (addAll m ps) k = some true := by
  induction ps generalizing m with
  | nil => exact Or.inl h
  | cons p rest ih =>
    unfold addAll at ih ⊢
    rw [List.foldl_cons]
    by_cases hp : p = k
    · subst hp
      have h1 : orInsert m p true = m ++ [(p, true)] := by
        unfold orInsert
        rw [h]
        rfl
      rw [h1]
      right
      have h2 : mapLookup (m ++ [(p, true)]) p = some true := mapLookup_snoc_self true h
      have h3 : mapLookup (addAll (m ++ [(p, true)]) rest) p = some true :=
        addAll_lookup_some h2
      unfold addAll at h3
      exact h3
    · exact ih (orInsert_lookup_none_other true h hp)

/-- C2: in the candidate merge of `interactive_selection`, a path already
bound in the loaded selection map keeps its flag — re-adding it as a
canonicalized CLI root or as a discovered directory changes nothing (so a
non-recursive entry is never upgraded) — while a path not yet bound that
appears among the CLI roots, or among the discovered directories when there
is at least one root, is inserted with `recursive = true`. -/
theorem merge_preserves_existing_flags :
    (∀ (m : List (PathC × Bool)) (croots dirs : List PathC) (k : PathC) (b : Bool),
        mapLookup m k = some b → mapLookup (buildCandidates m croots dirs) k = some b) ∧
      (∀ (m : List (PathC × Bool)) (croots dirs : List PathC) (k : PathC),
        mapLookup m k = none → (k ∈ croots ∨ (croots ≠ [] ∧ k ∈ dirs)) →
        mapLookup (buildCandidates m croots dirs) k = some true) := by
  constructor
  · intro m croots dirs k b h
    unfold buildCandidates
    split
    · exact addAll_lookup_some h
    · exact addAll_lookup_some (addAll_lookup_some h)
  · intro m croots dirs k h hmem
    unfold buildCandidates
    rcases hmem with hk | ⟨hcr, hk⟩
    · have h1 : mapLookup (addAll m croots) k = some true := addAll_lookup_mem_none hk h
      split
      · exact h1
      · exact addAll_lookup_some h1
    · have hne : croots.isEmpty = false := by
        cases croots with
        | nil => exact absurd rfl hcr
        | cons a l => rfl
      rw [if_neg (by simp [hne])]
      have hcases : mapLookup (addAll m croots) k = none ∨
          mapLookup (addAll m croots) k = some true := addAll_lookup_none_cases h
      rcases hcases with h1 | h1
      · exact addAll_lookup_mem_none hk h1
      · exact addAll_lookup_some h1

/-- C2 witness: the persisted non-recursive entry `*docs` keeps
`recursive = false` when `docs` is both a CLI root and rediscovered, and the
fresh path `sub` is inserted recursive. -/
theorem merge_preserves_existing_flags_witness :
    mapLookup (selectionToMap (chars "/r") [SelectedPath.mk (chars "docs") false])
        (chars "/r/docs") = some false ∧
      mapLookup
        (buildCandidates (selectionToMap (chars "/r") [SelectedPath.mk (chars "docs") false])
          [chars "/r/docs"] [chars "/r/docs", chars "/r/sub"])
        (chars "/r/docs") = some false ∧
      mapLookup
        (buildCandidates (selectionToMap (chars "/r") [SelectedPath.mk (chars "docs") false])
          [chars "/r/docs"] [chars "/r/docs", chars "/r/sub"])
        (chars "/r/sub") = some true :=
  ⟨by decide,
    merge_preserves_existing_flags.1 _ _ _ _ false (by decide),
    merge_preserves_existing_flags.2 _ _ _ _ (by decide)
      (Or.inr ⟨by decide, by decide⟩)⟩

theorem keys_mapInsert {m : List (PathC × Bool)} (k : PathC) (v : Bool)
    (h : (m.map Prod.fst).Nodup) : ((mapInsert m k v).map Prod.fst).Nodup := by
  unfold mapInsert
  split
  · rw [List.map_map]
    have : ∀ e ∈ m, (Prod.fst ∘ fun e => if e.1 = k then (k, v) else e) e = Prod.fst e := by
      intro e _
      by_cases he : e.1 = k
      · simp [he]
      · simp [he]
    rw [List.map_congr_left this]
    exact h
  · rename_i hnone
    have hk : k ∉ m.map Prod.fst := by
      rw [← mapLookup_eq_none_iff]
      cases hm : mapLookup m k with
      | none => rfl
      | some b => rw [hm] at hnone; simp at hnone
    simp [List.nodup_append, h, hk]

theorem keys_orInsert {m : List (PathC × Bool)} (k : PathC) (v : Bool)
    (h : (m.map Prod.fst).Nodup) : ((orInsert m k v).map Prod.fst).Nodup := by
  unfold orInsert
  split
  · exact h
  · rename_i hnone
    have hk : k ∉ m.map Prod.fst := by
      rw [← mapLookup_eq_none_iff]
      cases hm : mapLookup m k with
      | none => rfl
      | some b => rw [hm] at hnone; simp at hnone
    simp [List.nodup_append, h, hk]

theorem keys_addAll {ps : List PathC} {m : List (PathC × Bool)}
    (h : (m.map Prod.fst).Nodup) : ((addAll m ps).map Prod.fst).Nodup := by
  induction ps generalizing m with
  | nil => exact h
  | cons p rest ih =>
    unfold addAll at ih ⊢
    rw [List.foldl_cons]
    exact ih (keys_orInsert p true h)

theorem keys_selectionToMap (gitRoot : PathC) (prev : List SelectedPath) :
    ((selectionToMap gitRoot prev).map Prod.fst).Nodup := by
  unfold selectionToMap
  suffices hgen : ∀ (l : List SelectedPath) (m : List (PathC × Bool)),
      (m.map Prod.fst).Nodup →
      ((l.foldl (fun m sp => mapInsert m (pathJoin gitRoot sp.path) sp.recursive) m).map
        Prod.fst).Nodup by
    exact hgen prev [] (by simp)
  intro l
  induction l with
  | nil => intro m hm; exact hm
  | cons sp rest ih =>
    intro m hm
    rw [List.foldl_cons]
    exact ih _ (keys_mapInsert _ _ hm)

/-- C4 (amended): the candidate map of the merge phase binds each distinct
path at most once for any inputs; the per-path uniqueness the claim asserts
holds there, but not of the parsed final selection, which dedupes by the
whole `(path, recursive)` pair (see the counterexample). -/
theorem candidates_one_entry_per_path (gitRoot : PathC) (prev : List SelectedPath)
    (croots dirs : List PathC) :
    ((buildCandidates (selectionToMap gitRoot prev) croots dirs).map Prod.fst).Nodup := by
  unfold buildCandidates
  split
  · exact keys_addAll (keys_selectionToMap gitRoot prev)
  · exact keys_addAll (keys_addAll (keys_selectionToMap gitRoot prev))

/-- A concrete world in which the editor returns both `d` and `*d`: `d` is a
directory of the repository `/r`, every collaborator behaves consistently. -/
def w4 : ReconWorld :=
  { canon := fun p => if p = chars "d" then some (chars "/r/d") else none,
    walkDirs := fun _ => [],
    diff := fun p base =>
      if base = chars "/r" ∧ p = chars "/r/d" then some (chars "d") else none,
    cwd := chars "/r",
    gitRoot := chars "/r",
    editor := fun _ => [chars "d", chars "*d"] }

/-- C4 counterexample: reconciliation succeeds and persists a selection
holding the same path `d` with both recursive values — the algorithm dedupes
by the `(path, recursive)` pair, not per distinct path. -/
theorem final_selection_duplicate_path :
    interactiveSelection w4 [] [SelectedPath.mk (chars "d") true] =
        Except.ok
          ([SelectedPath.mk (chars "d") true, SelectedPath.mk (chars "d") false].toFinset) ∧
      SelectedPath.mk (chars "d") true ∈
        [SelectedPath.mk (chars "d") true, SelectedPath.mk (chars "d") false].toFinset ∧
      SelectedPath.mk (chars "d") false ∈
        [SelectedPath.mk (chars "d") true, SelectedPath.mk (chars "d") false].toFinset ∧
      (SelectedPath.mk (chars "d") true).path = (SelectedPath.mk (chars "d") false).path ∧
      (SelectedPath.mk (chars "d") true).recursive ≠
        (SelectedPath.mk (chars "d") false).recursive := by
  refine ⟨by decide, by decide, by decide, rfl, by decide⟩

/-- C3 helper world: the editor returns two lines naming nonexistent paths. -/
def w3 : ReconWorld :=
  { canon := fun p => if p = chars "d" then some (chars "/r/d") else none,
    walkDirs := fun _ => [],
    diff := fun p base =>
      if base = chars "/r" ∧ p = chars "/r/d" then some (chars "d") else none,
    cwd := chars "/r",
    gitRoot := chars "/r",
    editor := fun _ => [chars "bad1", chars "bad2"] }

/-- C3: when any non-comment, non-blank editor line fails canonicalization,
the parse error list is exactly the list of every failing line's decoded path
(in order, nothing dropped), the parse phase fails carrying that whole list,
and a failing reconciliation performs no config write. -/
theorem parse_failure_aggregates_all_errors :
    (∀ (canon : PathC → Option PathC) (lines : List PathC),
        (collectParsed canon lines).2 =
          (lines.filter keptLine).filterMap
            (fun l =>
              match parseLine canon l with
              | Except.error p => some p
              | Except.ok _ => none)) ∧
      (∀ (w : ReconWorld) (result : List PathC),
        (collectParsed w.canon result).2 ≠ [] →
        parsePhase w result =
          Except.error (RecErr.parseErrors (collectParsed w.canon result).2)) ∧
      (∀ (w : ReconWorld) (roots : List PathC) (prev : List SelectedPath) (e : RecErr),
        interactiveSelection w roots prev = Except.error e →
        selRunWrites w roots prev = []) := by
  refine ⟨?_, ?_, ?_⟩
  · intro canon lines
    unfold collectParsed
    suffices hgen : ∀ (ls : List PathC) (acc : List SelectedPath × List PathC),
        (ls.foldl
          (fun acc line =>
            match parseLine canon line with
            | Except.ok sp => (setInsert acc.1 sp, acc.2)
            | Except.error p => (acc.1, acc.2 ++ [p])) acc).2 =
          acc.2 ++ ls.filterMap
            (fun l =>
              match parseLine canon l with
              | Except.error p => some p
              | Except.ok _ => none) by
      rw [hgen (lines.filter keptLine) (([], []) : List SelectedPath × List PathC)]
      simp
    intro ls
    induction ls with
    | nil => intro acc; simp
    | cons l rest ih =>
      intro acc
      rw [List.foldl_cons, List.filterMap_cons]
      cases hp : parseLine canon l with
      | ok sp => simp only [hp]; rw [ih]
      | error p => simp only [hp]; rw [ih]; simp
  · intro w result hne
    unfold parsePhase
    have : (collectParsed w.canon result).2.isEmpty = false := by
      cases h : (collectParsed w.canon result).2 with
      | nil => exact absurd h hne
      | cons a l => rfl
    simp [this]
  · intro w roots prev e h
    unfold selRunWrites
    rw [h]

/-- C3 witness: with two nonexistent paths `bad1` and `bad2` in the buffer,
the failure carries both errors and no config write happens. -/
theorem parse_failure_aggregates_all_errors_witness :
    parsePhase w3 [chars "bad1", chars "bad2"] =
        Except.error (RecErr.parseErrors [chars "bad1", chars "bad2"]) ∧
      selRunWrites w3 [] [SelectedPath.mk (chars "d") true] = [] := by
  constructor
  · have h := parse_failure_aggregates_all_errors.2.1 w3 [chars "bad1", chars "bad2"]
      (by decide)
    rw [h]
    decide
  · exact parse_failure_aggregates_all_errors.2.2 w3 [] [SelectedPath.mk (chars "d") true]
      (RecErr.parseErrors [chars "bad1", chars "bad2"]) (by decide)

theorem walkForest_depth0_files (ign : PathC → Bool) (hign : ∀ q, ign q = false)
    (p : PathC) (cs : FsForest) :
    ((walkForest ign (some 0) p cs).filter (fun e => e.2)).map Prod.fst =
      directChildFiles p cs := by
  cases cs with
  | nil => rfl
  | cons n t rest =>
    rw [walkForest, hign (pathJoin p n), if_neg (by simp)]
    rw [List.filter_append, List.map_append, walkForest_depth0_files ign hign p rest]
    cases t with
    | file => rfl
    | dir cs2 =>
      rw [walkTree, if_pos rfl]
      rfl

mutual

theorem walkTree_none_files (ign : PathC → Bool) (hign : ∀ q, ign q = false)
    (p : PathC) (t : FsTree) :
    ((walkTree ign none p t).filter (fun e => e.2)).map Prod.fst = subtreeFiles p t := by
  cases t with
  | file => rfl
  | dir cs =>
    rw [walkTree, if_neg (by simp)]
    show ((walkForest ign (decLimit none) p cs).filter (fun e => e.2)).map Prod.fst =
      subtreeForestFiles p cs
    rw [show decLimit none = none from rfl]
    exact walkForest_none_files ign hign p cs

theorem walkForest_none_files (ign : PathC → Bool) (hign : ∀ q, ign q = false)
    (p : PathC) (cs : FsForest) :
    ((walkForest ign none p cs).filter (fun e => e.2)).map Prod.fst =
      subtreeForestFiles p cs := by
  cases cs with
  | nil => rfl
  | cons n t rest =>
    rw [walkForest, hign (pathJoin p n), if_neg (by simp)]
    rw [List.filter_append, List.map_append]
    rw [walkTree_none_files ign hign (pathJoin p n) t, walkForest_none_files ign hign p rest]
    rfl

end

/-- The example directory of the claim: `d` contains the file `a.txt` and the
subdirectory `sub` containing the file `b.txt`. -/
def exForest : FsForest :=
  FsForest.cons (chars "a.txt") FsTree.file
    (FsForest.cons (chars "sub")
      (FsTree.dir (FsForest.cons (chars "b.txt") FsTree.file FsForest.nil))
      FsForest.nil)

/-- Concrete expansion world for the example tree under repository `/r`. -/
def w8 : ExpWorld :=
  { fsAt := fun p => if p = chars "/r/d" then some (FsTree.dir exForest) else none,
    ign := fun _ => false,
    diff := fun p base =>
      if base = chars "/r" then
        if p = chars "/r/d/a.txt" then some (chars "d/a.txt")
        else if p = chars "/r/d/sub/b.txt" then some (chars "d/sub/b.txt")
        else none
      else none,
    cwd := chars "/r",
    gitRoot := chars "/r" }

/-- C8: with depth bound 1 (the non-recursive case) the walk yields as regular
files exactly the direct-child files of the directory and nothing from any
subdirectory; unbounded (the recursive case) it yields every regular file of
the subtree; concretely, for `d` containing `d/a.txt` and `d/sub/b.txt` the
non-recursive expansion invokes the callback only on `d/a.txt` and the
recursive expansion on both files. -/
theorem expansion_depth_semantics :
    (∀ (ign : PathC → Bool) (p : PathC) (cs : FsForest), (∀ q, ign q = false) →
        ((walkTree ign (some 1) p (FsTree.dir cs)).filter (fun e => e.2)).map Prod.fst =
          directChildFiles p cs) ∧
      (∀ (ign : PathC → Bool) (p : PathC) (t : FsTree), (∀ q, ign q = false) →
        ((walkTree ign none p t).filter (fun e => e.2)).map Prod.fst = subtreeFiles p t) ∧
      walkSelectedFiles w8 [SelectedPath.mk (chars "d") false] =
        Except.ok [(chars "/r/d/a.txt", chars "d/a.txt")] ∧
      walkSelectedFiles w8 [SelectedPath.mk (chars "d") true] =
        Except.ok
          [(chars "/r/d/a.txt", chars "d/a.txt"),
            (chars "/r/d/sub/b.txt", chars "d/sub/b.txt")] := by
  refine ⟨?_, ?_, by decide, by decide⟩
  · intro ign p cs hign
    rw [walkTree, if_neg (by simp)]
    show ((walkForest ign (decLimit (some 1)) p cs).filter (fun e => e.2)).map Prod.fst =
      directChildFiles p cs
    rw [show decLimit (some 1) = some 0 from rfl]
    exact walkForest_depth0_files ign hign p cs
  · intro ign p t hign
    exact walkTree_none_files ign hign p t

/-- C8 witness: the depth-1 part of the theorem applied to the example tree
with no ignore rules. -/
theorem expansion_depth_semantics_witness :
    ((walkTree (fun _ => false) (some 1) (chars "/r/d") (FsTree.dir exForest)).filter
        (fun e => e.2)).map Prod.fst = directChildFiles (chars "/r/d") exForest :=
  expansion_depth_semantics.1 (fun _ => false) (chars "/r/d") exForest (fun _ => rfl)

/-- Concrete expansion world with two selected directories `a` and `b` under
repository `/r`, holding the files `a/g` and `b/f`. -/
def w7 : ExpWorld :=
  { fsAt := fun p =>
      if p = chars "/r/a" then
        some (FsTree.dir (FsForest.cons (chars "g") FsTree.file FsForest.nil))
      else if p = chars "/r/b" then
        some (FsTree.dir (FsForest.cons (chars "f") FsTree.file FsForest.nil))
      else none,
    ign := fun _ => false,
    diff := fun p base =>
      if base = chars "/r" then
        if p = chars "/r/a/g" then some (chars "a/g")
        else if p = chars "/r/b/f" then some (chars "b/f")
        else none
      else none,
    cwd := chars "/r",
    gitRoot := chars "/r" }

/-- C7 counterexample: the walker follows the set's iteration order, not the
Selection total order. Both lists below enumerate the same two-entry
selection; under the second (legitimate) iteration order the callbacks of the
entry `b` — the greater one in the lexicographic-encoding order — all precede
those of the smaller entry `a`, refuting the claimed ordering. -/
theorem walk_order_counterexample :
    walkSelectedFiles w7 [SelectedPath.mk (chars "b") true, SelectedPath.mk (chars "a") true] =
        Except.ok [(chars "/r/b/f", chars "b/f"), (chars "/r/a/g", chars "a/g")] ∧
      walkSelectedFiles w7
          [SelectedPath.mk (chars "a") true, SelectedPath.mk (chars "b") true] =
        Except.ok [(chars "/r/a/g", chars "a/g"), (chars "/r/b/f", chars "b/f")] ∧
      ([SelectedPath.mk (chars "b") true, SelectedPath.mk (chars "a") true] :
        List SelectedPath).Nodup ∧
      ([SelectedPath.mk (chars "b") true, SelectedPath.mk (chars "a") true] :
          List SelectedPath).toFinset =
        ([SelectedPath.mk (chars "a") true, SelectedPath.mk (chars "b") true] :
          List SelectedPath).toFinset ∧
      specEncodingLe (SelectedPath.mk (chars "a") true) (SelectedPath.mk (chars "b") true) =
        true ∧
      specEncodingLe (SelectedPath.mk (chars "b") true) (SelectedPath.mk (chars "a") true) =
        false := by
  refine ⟨by decide, by decide, by decide, by decide, by decide, by decide⟩

/-- C7 (amended): the walker processes entries exactly in the iteration order
it is handed — the callback lists of the individual entries are concatenated
in that order, with no reordering by the Selection total order. -/
theorem walk_follows_iteration_order (w : ExpWorld) (selOrder : List SelectedPath)
    (fcs : SelectedPath → List (PathC × PathC))
    (h : ∀ sp ∈ selOrder.map
        (fun p => SelectedPath.mk (pathJoin w.gitRoot p.path) p.recursive),
      fileCallbacks w sp = Except.ok (fcs sp)) :
    walkSelectedFiles w selOrder =
      Except.ok
        (((selOrder.map (fun p => SelectedPath.mk (pathJoin w.gitRoot p.path) p.recursive)).map
          fcs).flatten) := by
  unfold walkSelectedFiles
  have hmap : ∀ (l : List SelectedPath), (∀ sp ∈ l, fileCallbacks w sp = Except.ok (fcs sp)) →
      exceptMapM (fileCallbacks w) l = Except.ok (l.map fcs) := by
    intro l
    induction l with
    | nil => intro _; rfl
    | cons a as ih =>
      intro hl
      rw [exceptMapM, hl a (List.mem_cons_self a as),
        ih (fun sp hsp => hl sp (List.mem_cons_of_mem a hsp))]
      rfl
  rw [hmap _ h]

/-- C7 witness for the amended theorem: the two-entry world, iterated in the
order `b`, `a`. -/
def fcs7 : SelectedPath → List (PathC × PathC) := fun sp =>
  if sp.path = chars "/r/b" then [(chars "/r/b/f", chars "b/f")]
  else [(chars "/r/a/g", chars "a/g")]

theorem walk_follows_iteration_order_witness :
    walkSelectedFiles w7 [SelectedPath.mk (chars "b") true, SelectedPath.mk (chars "a") true] =
      Except.ok
        ((([SelectedPath.mk (chars "b") true, SelectedPath.mk (chars "a") true].map
            (fun p => SelectedPath.mk (pathJoin w7.gitRoot p.path) p.recursive)).map
          fcs7).flatten) :=
  walk_follows_iteration_order w7
    [SelectedPath.mk (chars "b") true, SelectedPath.mk (chars "a") true] fcs7 (by decide)

/-- Echo-editor world with persisted entries `a` (recursive) and `ab`
(non-recursive) under repository `/r`. -/
def w6 : ReconWorld :=
  { canon := fun p =>
      if p = chars "a" then some (chars "/r/a")
      else if p = chars "ab" then some (chars "/r/ab")
      else none,
    walkDirs := fun _ => [],
    diff := fun p base =>
      if base = chars "/r" then
        if p = chars "/r/a" then some (chars "a")
        else if p = chars "/r/ab" then some (chars "ab")
        else none
      else none,
    cwd := chars "/r",
    gitRoot := chars "/r",
    editor := fun b => b }

/-- The loaded candidate map for the persisted selection `{a, *ab}`. -/
def f06 : List (PathC × Bool) :=
  selectionToMap (chars "/r")
    [SelectedPath.mk (chars "a") true, SelectedPath.mk (chars "ab") false]

/-- C6 counterexample: the rendered buffer lists `a` before `*ab` (the code
sorts by the derived `(path, recursive)` order), but in the specification's
total order — lexicographic on the textual encoding — `*ab` precedes `a`
strictly, so the group is not sorted by the Selection total order. -/
theorem render_order_counterexample :
    renderLines w6 (sortedGroups f06 f06) =
        Except.ok (headerLines ++ [chars "a", chars "*ab"]) ∧
      SelectedPath.toString (SelectedPath.mk (chars "a") true) = chars "a" ∧
      SelectedPath.toString (SelectedPath.mk (chars "ab") false) = chars "*ab" ∧
      specEncodingLe (SelectedPath.mk (chars "ab") false) (SelectedPath.mk (chars "a") true) =
        true ∧
      specEncodingLe (SelectedPath.mk (chars "a") true) (SelectedPath.mk (chars "ab") false) =
        false := by
  refine ⟨by decide, by decide, by decide, by decide, by decide⟩

/-- C6 (amended): the rendered buffer is the fixed header, then one
uncommented cwd-relative line per originally-selected entry, then one blank
separator exactly when both groups are non-empty, then one comment-prefixed
line per newly-suggested entry; each group is sorted by the derived
`(path, recursive)` order of `SelectedPath` — the path field compared
component-wise as `PathBuf`'s `Ord`, so `/r/a/b` sorts before `/r/a.txt`
although their byte order is the reverse — and not by the lexicographic
order on the textual encoding; the groups partition the candidates by
whether the path was already bound in the loaded selection map. -/
theorem render_buffer_structure :
    (∀ f0 f, ((sortedGroups f0 f).1).Sorted SelectedPath.leP ∧
        ((sortedGroups f0 f).2).Sorted SelectedPath.leP) ∧
      (∀ f0 f sp,
        (sp ∈ (sortedGroups f0 f).1 ↔
          sp ∈ f.map (fun e => SelectedPath.mk e.1 e.2) ∧ sp.path ∈ f0.map Prod.fst) ∧
        (sp ∈ (sortedGroups f0 f).2 ↔
          sp ∈ f.map (fun e => SelectedPath.mk e.1 e.2) ∧ sp.path ∉ f0.map Prod.fst)) ∧
      (∀ (w : ReconWorld) (s n : List SelectedPath) (selLines newLines : List PathC),
        exceptMapM (toRelativeLine w) s = Except.ok selLines →
        exceptMapM (toRelativeLine w) n = Except.ok newLines →
        renderLines w (s, n) = Except.ok
          (headerLines ++ selLines ++
            (if !s.isEmpty && !n.isEmpty then [([] : PathC)] else []) ++
            newLines.map (fun l => commentMarker ++ l))) ∧
      (∀ (w : ReconWorld) (sp : SelectedPath) (line : PathC),
        toRelativeLine w sp = Except.ok line →
        ∃ rel, w.diff sp.path w.cwd = some rel ∧
          line = SelectedPath.toString (SelectedPath.mk rel sp.recursive)) ∧
      (SelectedPath.le (SelectedPath.mk (chars "/r/a/b") true)
          (SelectedPath.mk (chars "/r/a.txt") true) = true ∧
        SelectedPath.le (SelectedPath.mk (chars "/r/a.txt") true)
          (SelectedPath.mk (chars "/r/a/b") true) = false ∧
        lexLe (chars "/r/a.txt") (chars "/r/a/b") = true) := by
  refine ⟨?_, ?_, ?_, ?_, by decide, by decide, by decide⟩
  · intro f0 f
    exact ⟨List.sorted_insertionSort SelectedPath.leP _,
      List.sorted_insertionSort SelectedPath.leP _⟩
  · intro f0 f sp
    unfold sortedGroups
    simp only [List.partition_eq_filter_filter]
    constructor
    · rw [(List.perm_insertionSort SelectedPath.leP _).mem_iff]
      simp [List.mem_filter]
    · rw [(List.perm_insertionSort SelectedPath.leP _).mem_iff]
      simp [List.mem_filter]
  · intro w s n selLines newLines hs hn
    unfold renderLines
    rw [hs, hn]
  · intro w sp line h
    unfold toRelativeLine at h
    cases hd : w.diff sp.path w.cwd with
    | some rel =>
      rw [hd] at h
      exact ⟨rel, rfl, (Except.ok.inj h).symm⟩
    | none => rw [hd] at h; cases h

/-- C6 witness: the buffer for a single originally-selected entry. -/
theorem render_buffer_structure_witness :
    renderLines w6 ([SelectedPath.mk (chars "/r/a") true], []) =
      Except.ok
        (headerLines ++ [chars "a"] ++
          (if !([SelectedPath.mk (chars "/r/a") true].isEmpty) && !(List.isEmpty ([] : List SelectedPath)) then [([] : PathC)] else []) ++
          ([] : List PathC).map (fun l => commentMarker ++ l)) :=
  render_buffer_structure.2.2.1 w6 [SelectedPath.mk (chars "/r/a") true] []
    [chars "a"] [] (by decide) (by decide)

theorem exceptMapM_ok_of_forall {ε α β : Type} {f : α → Except ε β} :
    ∀ {l : List α}, (∀ a ∈ l, ∃ b, f a = Except.ok b) →
    ∃ bs, exceptMapM f l = Except.ok bs ∧
      List.Forall₂ (fun a b => f a = Except.ok b) l bs := by
  intro l
  induction l with
  | nil => intro _; exact ⟨[], rfl, List.Forall₂.nil⟩
  | cons a as ih =>
    intro h
    obtain ⟨b, hb⟩ := h a (List.mem_cons_self a as)
    obtain ⟨bs, hbs, hpair⟩ := ih (fun x hx => h x (List.mem_cons_of_mem a hx))
    refine ⟨b :: bs, ?_, List.Forall₂.cons hb hpair⟩
    rw [exceptMapM, hb, hbs]

theorem forall₂_mem_left {α β : Type} {R : α → β → Prop} :
    ∀ {xs : List α} {ys : List β}, List.Forall₂ R xs ys → ∀ {x}, x ∈ xs →
      ∃ y ∈ ys, R x y := by
  intro xs ys h
  induction h with
  | nil => intro x hx; cases hx
  | cons hr _ ih =>
    intro x hx
    cases hx with
    | head => exact ⟨_, List.mem_cons_self _ _, hr⟩
    | tail _ hmem =>
      obtain ⟨y, hy, hxy⟩ := ih hmem
      exact ⟨y, List.mem_cons_of_mem _ hy, hxy⟩

theorem forall₂_mem_right {α β : Type} {R : α → β → Prop} :
    ∀ {xs : List α} {ys : List β}, List.Forall₂ R xs ys → ∀ {y}, y ∈ ys →
      ∃ x ∈ xs, R x y := by
  intro xs ys h
  induction h with
  | nil => intro y hy; cases hy
  | cons hr _ ih =>
    intro y hy
    cases hy with
    | head => exact ⟨_, List.mem_cons_self _ _, hr⟩
    | tail _ hmem =>
      obtain ⟨x, hx, hxy⟩ := ih hmem
      exact ⟨x, List.mem_cons_of_mem _ hx, hxy⟩

theorem forall₂_flip_imp {α β : Type} {R : α → β → Prop} {R2 : β → α → Prop} :
    ∀ {xs : List α} {ys : List β}, List.Forall₂ R xs ys →
      (∀ x ∈ xs, ∀ y, R x y → R2 y x) → List.Forall₂ R2 ys xs := by
  intro xs ys h
  induction h with
  | nil => intro _; exact List.Forall₂.nil
  | cons hr hrest ih =>
    intro himp
    exact List.Forall₂.cons (himp _ (List.mem_cons_self _ _) _ hr)
      (ih (fun x hx y hy => himp x (List.mem_cons_of_mem _ hx) y hy))

theorem foldl_mapInsert_fresh (g : PathC) :
    ∀ (l : List SelectedPath) (m : List (PathC × Bool)),
      (m.map Prod.fst ++ l.map (fun sp => pathJoin g sp.path)).Nodup →
      l.foldl (fun m sp => mapInsert m (pathJoin g sp.path) sp.recursive) m =
        m ++ l.map (fun sp => (pathJoin g sp.path, sp.recursive)) := by
  intro l
  induction l with
  | nil => intro m _; simp
  | cons sp rest ih =>
    intro m hnd
    rw [List.foldl_cons]
    have hkey : pathJoin g sp.path ∉ m.map Prod.fst := by
      rw [List.map_cons] at hnd
      intro hmem
      rcases List.nodup_append.mp hnd with ⟨_, _, hdisj⟩
      exact hdisj hmem (List.mem_cons_self _ _)
    have hins : mapInsert m (pathJoin g sp.path) sp.recursive =
        m ++ [(pathJoin g sp.path, sp.recursive)] := by
      unfold mapInsert
      rw [mapLookup_eq_none_iff.mpr hkey]
      rfl
    rw [hins]
    have hnd2 : ((m ++ [(pathJoin g sp.path, sp.recursive)]).map Prod.fst ++
        rest.map (fun sp => pathJoin g sp.path)).Nodup := by
      rw [List.map_append, List.append_assoc]
      simpa using hnd
    rw [ih _ hnd2]
    rw [List.map_cons, List.append_assoc]
    rfl

theorem selectionToMap_eq {g : PathC} {l : List SelectedPath}
    (h : (l.map (fun sp => pathJoin g sp.path)).Nodup) :
    selectionToMap g l = l.map (fun sp => (pathJoin g sp.path, sp.recursive)) := by
  unfold selectionToMap
  have := foldl_mapInsert_fresh g l [] (by simpa using h)
  simpa using this

theorem addAll_ext :
    ∀ (ps : List PathC) (m : List (PathC × Bool)),
      ∃ ext, addAll m ps = m ++ ext ∧
        ∀ e ∈ ext, e.1 ∈ ps ∧ e.2 = true ∧ e.1 ∉ m.map Prod.fst := by
  intro ps
  induction ps with
  | nil => intro m; exact ⟨[], by simp [addAll], fun e he => absurd he (List.not_mem_nil e)⟩
  | cons p rest ih =>
    intro m
    unfold addAll
    rw [List.foldl_cons]
    by_cases hp : (mapLookup m p).isSome
    · have horin : orInsert m p true = m := by unfold orInsert; rw [if_pos hp]
      rw [horin]
      obtain ⟨ext, hext, hprop⟩ := ih m
      unfold addAll at hext
      refine ⟨ext, hext, fun e he => ?_⟩
      obtain ⟨h1, h2, h3⟩ := hprop e he
      exact ⟨List.mem_cons_of_mem p h1, h2, h3⟩
    · have horin : orInsert m p true = m ++ [(p, true)] := by
        unfold orInsert; rw [if_neg hp]
      rw [horin]
      obtain ⟨ext, hext, hprop⟩ := ih (m ++ [(p, true)])
      unfold addAll at hext
      refine ⟨(p, true) :: ext, ?_, ?_⟩
      · rw [hext, ← List.append_cons]
      · intro e he
        cases he with
        | head =>
          refine ⟨List.mem_cons_self p rest, rfl, ?_⟩
          rw [← mapLookup_eq_none_iff]
          cases hm : mapLookup m p with
          | none => rfl
          | some b => rw [hm] at hp; simp at hp
        | tail _ hmem =>
          obtain ⟨h1, h2, h3⟩ := hprop e hmem
          refine ⟨List.mem_cons_of_mem p h1, h2, fun hmm => h3 ?_⟩
          rw [List.map_append]
          exact List.mem_append_left _ hmm

theorem buildCandidates_ext (m : List (PathC × Bool)) (croots dirs : List PathC) :
    ∃ ext, buildCandidates m croots dirs = m ++ ext ∧
      ∀ e ∈ ext, e.1 ∈ croots ++ dirs ∧ e.2 = true ∧ e.1 ∉ m.map Prod.fst := by
  unfold buildCandidates
  obtain ⟨ext1, hext1, hprop1⟩ := addAll_ext croots m
  by_cases hce : croots.isEmpty
  · rw [if_pos hce, hext1]
    exact ⟨ext1, rfl, fun e he =>
      ⟨List.mem_append_left _ (hprop1 e he).1, (hprop1 e he).2.1, (hprop1 e he).2.2⟩⟩
  · rw [if_neg hce, hext1]
    obtain ⟨ext2, hext2, hprop2⟩ := addAll_ext dirs (m ++ ext1)
    rw [hext2, List.append_assoc]
    refine ⟨ext1 ++ ext2, rfl, fun e he => ?_⟩
    rcases List.mem_append.mp he with h1 | h2
    · exact ⟨List.mem_append_left _ (hprop1 e h1).1, (hprop1 e h1).2.1, (hprop1 e h1).2.2⟩
    · refine ⟨List.mem_append_right _ (hprop2 e h2).1, (hprop2 e h2).2.1, fun hmm => ?_⟩
      apply (hprop2 e h2).2.2
      rw [List.map_append]
      exact List.mem_append_left _ hmm

theorem foldl_setInsert_nodup :
    ∀ (sps : List SelectedPath) (acc : List SelectedPath),
      sps.Nodup → (∀ x ∈ sps, x ∉ acc) →
      sps.foldl setInsert acc = acc ++ sps := by
  intro sps
  induction sps with
  | nil => intro acc _ _; simp
  | cons x rest ih =>
    intro acc hnd hdisj
    rw [List.foldl_cons]
    have hx : setInsert acc x = acc ++ [x] := by
      unfold setInsert
      rw [if_neg (by simpa using hdisj x (List.mem_cons_self x rest))]
    rw [hx]
    have hnd2 := (List.nodup_cons.mp hnd).2
    have hxrest := (List.nodup_cons.mp hnd).1
    rw [ih (acc ++ [x]) hnd2 ?_]
    · rw [← List.append_cons]
    · intro y hy hmem
      rcases List.mem_append.mp hmem with h1 | h2
      · exact hdisj y (List.mem_cons_of_mem x hy) h1
      · rw [List.mem_singleton] at h2
        exact hxrest (h2 ▸ hy)

theorem collectParsed_of_forall₂ {canon : PathC → Option PathC} {lines : List PathC}
    {sps : List SelectedPath}
    (h : List.Forall₂ (fun ln sp => parseLine canon ln = Except.ok sp)
      (lines.filter keptLine) sps) :
    collectParsed canon lines = (sps.foldl setInsert [], []) := by
  unfold collectParsed
  suffices hgen : ∀ {ls : List PathC} {ss : List SelectedPath},
      List.Forall₂ (fun ln sp => parseLine canon ln = Except.ok sp) ls ss →
      ∀ (acc : List SelectedPath × List PathC),
        ls.foldl
          (fun acc line =>
            match parseLine canon line with
            | Except.ok sp => (setInsert acc.1 sp, acc.2)
            | Except.error p => (acc.1, acc.2 ++ [p])) acc =
        (ss.foldl setInsert acc.1, acc.2) by
    exact hgen h ([], [])
  intro ls ss hf
  induction hf with
  | nil => intro acc; rfl
  | cons hr _ ih =>
    intro acc
    rw [List.foldl_cons, List.foldl_cons]
    rw [hr] at *
    exact ih _

theorem headerLines_filter_kept : headerLines.filter keptLine = [] := by decide

theorem keptLine_nil : keptLine ([] : PathC) = false := by decide

theorem keptLine_comment (x : PathC) : keptLine (commentMarker ++ x) = false := by
  have h : commentMarker = ['#', ' '] := by decide
  rw [h]
  rfl

theorem filter_kept_blank_sep (c : Prop) [Decidable c] :
    (if c then [([] : PathC)] else []).filter keptLine = [] := by
  split
  · rw [List.filter_cons, keptLine_nil]
    rfl
  · rfl

theorem toRelativeLine_of_diff {w : ReconWorld} {x : SelectedPath} {d : PathC}
    (hd : w.diff x.path w.cwd = some d) :
    toRelativeLine w x =
      Except.ok (SelectedPath.toString (SelectedPath.mk d x.recursive)) := by
  unfold toRelativeLine
  rw [hd]

theorem keptLine_of_line {d : PathC} {r : Bool}
    (hhash : startsWithChar '#' d = false) (hne : d ≠ [])
    (htrim : trimChars (SelectedPath.toString (SelectedPath.mk d r)) =
      SelectedPath.toString (SelectedPath.mk d r)) :
    keptLine (SelectedPath.toString (SelectedPath.mk d r)) = true := by
  cases r with
  | true =>
    have hts : SelectedPath.toString (SelectedPath.mk d true) = d := by
      simp [SelectedPath.toString]
    rw [hts] at htrim ⊢
    unfold keptLine startsWithHash
    rw [hhash, htrim]
    cases d with
    | nil => exact absurd rfl hne
    | cons a t => rfl
  | false =>
    have hts : SelectedPath.toString (SelectedPath.mk d false) = '*' :: d := by
      simp [SelectedPath.toString]
    rw [hts] at htrim ⊢
    unfold keptLine startsWithHash
    rw [htrim]
    rfl

theorem parseLine_of_good {canon : PathC → Option PathC} {d target : PathC} {r : Bool}
    (hstar : startsWithChar '*' d = false)
    (htrim : trimChars (SelectedPath.toString (SelectedPath.mk d r)) =
      SelectedPath.toString (SelectedPath.mk d r))
    (hcanon : canon d = some target) :
    parseLine canon (SelectedPath.toString (SelectedPath.mk d r)) =
      Except.ok (SelectedPath.mk target r) := by
  cases r with
  | true =>
    have hts : SelectedPath.toString (SelectedPath.mk d true) = d := by
      simp [SelectedPath.toString]
    rw [hts] at htrim ⊢
    simp only [parseLine, htrim, SelectedPath.fromStr, hstar]
    simp [hcanon]
  | false =>
    have hts : SelectedPath.toString (SelectedPath.mk d false) = '*' :: d := by
      simp [SelectedPath.toString]
    rw [hts] at htrim ⊢
    simp only [parseLine, htrim, SelectedPath.fromStr, startsWithChar]
    simp [hcanon]

/-- Coherence of one selection entry with the filesystem collaborators: its
absolute form relativizes to a clean line that canonicalizes back to the same
absolute path, and repo-relativization inverts the join. This is what holds
of a reconciliation output when no two candidate lines alias the same
canonical path. -/
def goodEntry (w : ReconWorld) (sp : SelectedPath) : Prop :=
  ∃ d, w.diff (pathJoin w.gitRoot sp.path) w.cwd = some d ∧
    startsWithChar '*' d = false ∧
    startsWithChar '#' d = false ∧
    d ≠ [] ∧
    trimChars (SelectedPath.toString (SelectedPath.mk d sp.recursive)) =
      SelectedPath.toString (SelectedPath.mk d sp.recursive) ∧
    w.canon d = some (pathJoin w.gitRoot sp.path) ∧
    w.diff (pathJoin w.gitRoot sp.path) w.gitRoot = some sp.path

/-- C5 (amended): with an echo editor, any selection whose entries have
pairwise-distinct paths and round-trip cleanly through the filesystem
collaborators is a fixed point of reconciliation — so running the engine a
second time on the first run's output returns that output unchanged whenever
the output satisfies these coherence conditions. (Without them the property
fails: see the aliasing counterexample.) -/
theorem reconciliation_echo_fixed_point (w : ReconWorld) (roots : List PathC)
    (l : List SelectedPath) (croots : List PathC)
    (hed : w.editor = fun b => b)
    (hnodup : (l.map (fun sp => sp.path)).Nodup)
    (hgood : ∀ sp ∈ l, goodEntry w sp)
    (hroots : canonicalizeRoots w.canon roots = Except.ok croots)
    (hnew : ∀ p ∈ croots ++ w.walkDirs croots, (w.diff p w.cwd).isSome = true) :
    interactiveSelection w roots l = Except.ok l.toFinset := by
  have hpinj := List.inj_on_of_nodup_map hnodup
  have hkeynodup : (l.map (fun sp => pathJoin w.gitRoot sp.path)).Nodup := by
    refine List.Nodup.map_on ?_ (List.Nodup.of_map _ hnodup)
    intro x hx y hy hxy
    obtain ⟨dx, hdx, _, _, _, _, _, hrx⟩ := hgood x hx
    obtain ⟨dy, hdy, _, _, _, _, _, hry⟩ := hgood y hy
    rw [hxy, hry] at hrx
    exact hpinj hx hy (Option.some.inj hrx).symm
  have hstm : selectionToMap w.gitRoot l =
      l.map (fun sp => (pathJoin w.gitRoot sp.path, sp.recursive)) :=
    selectionToMap_eq hkeynodup
  obtain ⟨ext, hbc, hext⟩ :=
    buildCandidates_ext (l.map (fun sp => (pathJoin w.gitRoot sp.path, sp.recursive)))
      croots (w.walkDirs croots)
  have hkeys : (l.map (fun sp => (pathJoin w.gitRoot sp.path, sp.recursive))).map Prod.fst =
      l.map (fun sp => pathJoin w.gitRoot sp.path) := by
    rw [List.map_map]
    rfl
  simp only [interactiveSelection, hroots, hstm, hbc]
  by_cases hemp :
      (l.map (fun sp => (pathJoin w.gitRoot sp.path, sp.recursive)) ++ ext).isEmpty = true
  · rw [if_pos hemp]
    obtain ⟨hA0, hext0⟩ := List.append_eq_nil.mp (List.isEmpty_iff.mp hemp)
    have hl0 : l = [] := List.map_eq_nil_iff.mp hA0
    subst hl0
    simp
  · rw [if_neg hemp]
    have hall : ((l.map (fun sp => (pathJoin w.gitRoot sp.path, sp.recursive)) ++ ext).map
        (fun e => SelectedPath.mk e.1 e.2)) =
        l.map (fun sp => SelectedPath.mk (pathJoin w.gitRoot sp.path) sp.recursive) ++
          ext.map (fun e => SelectedPath.mk e.1 e.2) := by
      rw [List.map_append, List.map_map]
      rfl
    have hfilter1 : (((l.map (fun sp => (pathJoin w.gitRoot sp.path, sp.recursive)) ++ ext).map
        (fun e => SelectedPath.mk e.1 e.2)).filter
          (fun p => ((l.map (fun sp => (pathJoin w.gitRoot sp.path, sp.recursive))).map
            Prod.fst).contains p.path)) =
        l.map (fun sp => SelectedPath.mk (pathJoin w.gitRoot sp.path) sp.recursive) := by
      rw [hall, List.filter_append]
      have h1 : (l.map (fun sp => SelectedPath.mk (pathJoin w.gitRoot sp.path)
          sp.recursive)).filter
            (fun p => ((l.map (fun sp => (pathJoin w.gitRoot sp.path, sp.recursive))).map
              Prod.fst).contains p.path) =
          l.map (fun sp => SelectedPath.mk (pathJoin w.gitRoot sp.path) sp.recursive) := by
        rw [List.filter_eq_self]
        intro x hx
        obtain ⟨sp, hsp, rfl⟩ := List.mem_map.mp hx
        rw [hkeys]
        exact List.elem_iff.mpr (List.mem_map_of_mem _ hsp)
      have h2 : (ext.map (fun e => SelectedPath.mk e.1 e.2)).filter
          (fun p => ((l.map (fun sp => (pathJoin w.gitRoot sp.path, sp.recursive))).map
            Prod.fst).contains p.path) = [] := by
        rw [List.filter_eq_nil_iff]
        intro x hx
        obtain ⟨e, he, rfl⟩ := List.mem_map.mp hx
        intro hcont
        rw [hkeys] at hcont
        apply (hext e he).2.2
        rw [hkeys]
        exact List.elem_iff.mp hcont
      rw [h1, h2, List.append_nil]
    have hfilter2 : (((l.map (fun sp => (pathJoin w.gitRoot sp.path, sp.recursive)) ++ ext).map
        (fun e => SelectedPath.mk e.1 e.2)).filter
          (not ∘ fun p => ((l.map (fun sp => (pathJoin w.gitRoot sp.path, sp.recursive))).map
            Prod.fst).contains p.path)) =
        ext.map (fun e => SelectedPath.mk e.1 e.2) := by
      rw [hall, List.filter_append]
      have h1 : (l.map (fun sp => SelectedPath.mk (pathJoin w.gitRoot sp.path)
          sp.recursive)).filter
            (not ∘ fun p => ((l.map (fun sp => (pathJoin w.gitRoot sp.path, sp.recursive))).map
              Prod.fst).contains p.path) = [] := by
        rw [List.filter_eq_nil_iff]
        intro x hx
        obtain ⟨sp, hsp, rfl⟩ := List.mem_map.mp hx
        simp only [Function.comp, Bool.not_eq_true', Bool.not_eq_false]
        rw [hkeys]
        exact List.elem_iff.mpr (List.mem_map_of_mem _ hsp)
      have h2 : (ext.map (fun e => SelectedPath.mk e.1 e.2)).filter
          (not ∘ fun p => ((l.map (fun sp => (pathJoin w.gitRoot sp.path, sp.recursive))).map
            Prod.fst).contains p.path) =
          ext.map (fun e => SelectedPath.mk e.1 e.2) := by
        rw [List.filter_eq_self]
        intro x hx
        obtain ⟨e, he, rfl⟩ := List.mem_map.mp hx
        simp only [Function.comp, Bool.not_eq_true']
        rw [hkeys]
        cases hcont : List.contains (l.map (fun sp => pathJoin w.gitRoot sp.path))
            (SelectedPath.mk e.1 e.2).path with
        | false => rfl
        | true =>
          exfalso
          apply (hext e he).2.2
          rw [hkeys]
          exact List.elem_iff.mp hcont
      rw [h1, h2, List.nil_append]
    have hgroups : sortedGroups (l.map (fun sp => (pathJoin w.gitRoot sp.path, sp.recursive)))
        (l.map (fun sp => (pathJoin w.gitRoot sp.path, sp.recursive)) ++ ext) =
        ((l.map (fun sp => SelectedPath.mk (pathJoin w.gitRoot sp.path)
            sp.recursive)).insertionSort SelectedPath.leP,
          (ext.map (fun e => SelectedPath.mk e.1 e.2)).insertionSort SelectedPath.leP) := by
      simp only [sortedGroups, List.partition_eq_filter_filter]
      rw [hfilter1, hfilter2]
    rw [hgroups]
    set S := (l.map (fun sp => SelectedPath.mk (pathJoin w.gitRoot sp.path)
        sp.recursive)).insertionSort SelectedPath.leP with hSdef
    set N := (ext.map (fun e => SelectedPath.mk e.1 e.2)).insertionSort
        SelectedPath.leP with hNdef
    have hSperm : S.Perm (l.map (fun sp => SelectedPath.mk (pathJoin w.gitRoot sp.path)
        sp.recursive)) := by
      rw [hSdef]
      exact List.perm_insertionSort _ _
    have hSmem : ∀ x ∈ S, ∃ sp, sp ∈ l ∧
        x = SelectedPath.mk (pathJoin w.gitRoot sp.path) sp.recursive := by
      intro x hx
      obtain ⟨sp, hsp, hspx⟩ := List.mem_map.mp (hSperm.mem_iff.mp hx)
      exact ⟨sp, hsp, hspx.symm⟩
    have hselok : ∀ x ∈ S, ∃ b, toRelativeLine w x = Except.ok b := by
      intro x hx
      obtain ⟨sp, hsp, rfl⟩ := hSmem x hx
      obtain ⟨d, hd, _, _, _, _, _, _⟩ := hgood sp hsp
      exact ⟨_, toRelativeLine_of_diff hd⟩
    obtain ⟨selLines, hselmap, hselpair⟩ := exceptMapM_ok_of_forall hselok
    have hNperm : N.Perm (ext.map (fun e => SelectedPath.mk e.1 e.2)) := by
      rw [hNdef]
      exact List.perm_insertionSort _ _
    have hnewok : ∀ y ∈ N, ∃ b, toRelativeLine w y = Except.ok b := by
      intro y hy
      obtain ⟨e, he, hey⟩ := List.mem_map.mp (hNperm.mem_iff.mp hy)
      obtain ⟨rel, hrel⟩ := Option.isSome_iff_exists.mp (hnew e.1 (hext e he).1)
      subst hey
      exact ⟨_, toRelativeLine_of_diff hrel⟩
    obtain ⟨newLines, hnewmap, hnewpair⟩ := exceptMapM_ok_of_forall hnewok
    have hrender : renderLines w (S, N) = Except.ok
        (headerLines ++ selLines ++
          (if !S.isEmpty && !N.isEmpty then [([] : PathC)] else []) ++
          newLines.map (fun ln => commentMarker ++ ln)) := by
      simp only [renderLines, hselmap, hnewmap]
    simp only [hrender, hed]
    have hselkept : ∀ ln ∈ selLines, keptLine ln = true := by
      intro ln hln
      obtain ⟨x, hx, hxl⟩ := forall₂_mem_right hselpair hln
      obtain ⟨sp, hsp, rfl⟩ := hSmem x hx
      obtain ⟨d, hd, hstar, hhash, hne, htrim, hcanon, hrel⟩ := hgood sp hsp
      rw [toRelativeLine_of_diff hd] at hxl
      have hlneq : SelectedPath.toString (SelectedPath.mk d sp.recursive) = ln :=
        Except.ok.inj hxl
      rw [← hlneq]
      exact keptLine_of_line hhash hne htrim
    have hfilterbuf : (headerLines ++ selLines ++
        (if !S.isEmpty && !N.isEmpty then [([] : PathC)] else []) ++
        newLines.map (fun ln => commentMarker ++ ln)).filter keptLine = selLines := by
      rw [List.filter_append, List.filter_append, List.filter_append]
      rw [headerLines_filter_kept, filter_kept_blank_sep, List.filter_eq_self.mpr hselkept]
      have hcomm : (newLines.map (fun ln => commentMarker ++ ln)).filter keptLine = [] := by
        rw [List.filter_eq_nil_iff]
        intro x hx
        obtain ⟨ln, _, rfl⟩ := List.mem_map.mp hx
        simp [keptLine_comment]
      rw [hcomm]
      simp
    have hparsepair : List.Forall₂ (fun ln x => parseLine w.canon ln = Except.ok x)
        selLines S := by
      refine forall₂_flip_imp hselpair ?_
      intro x hx ln hln
      obtain ⟨sp, hsp, rfl⟩ := hSmem x hx
      obtain ⟨d, hd, hstar, hhash, hne, htrim, hcanon, hrel⟩ := hgood sp hsp
      rw [toRelativeLine_of_diff hd] at hln
      have hlneq : SelectedPath.toString (SelectedPath.mk d sp.recursive) = ln :=
        Except.ok.inj hln
      rw [← hlneq]
      exact parseLine_of_good hstar htrim hcanon
    have hcollect : collectParsed w.canon
        (headerLines ++ selLines ++
          (if !S.isEmpty && !N.isEmpty then [([] : PathC)] else []) ++
          newLines.map (fun ln => commentMarker ++ ln)) = (S.foldl setInsert [], []) := by
      apply collectParsed_of_forall₂
      rw [hfilterbuf]
      exact hparsepair
    have hSnodup : S.Nodup := by
      apply hSperm.nodup_iff.mpr
      apply List.Nodup.of_map (fun x : SelectedPath => x.path)
      rw [List.map_map]
      exact hkeynodup
    have hfold : S.foldl setInsert [] = S := by
      rw [foldl_setInsert_nodup S [] hSnodup (fun x _ hc => absurd hc (List.not_mem_nil x))]
      simp
    have hrelok : ∀ x ∈ S, ∃ b, relativizeOne w x = Except.ok b := by
      intro x hx
      obtain ⟨sp, hsp, rfl⟩ := hSmem x hx
      obtain ⟨d, _, _, _, _, _, _, hrel⟩ := hgood sp hsp
      refine ⟨SelectedPath.mk sp.path sp.recursive, ?_⟩
      show (match w.diff (pathJoin w.gitRoot sp.path) w.gitRoot with
        | some rel => Except.ok (SelectedPath.mk rel sp.recursive)
        | none => Except.error (RecErr.relativizeFailed (pathJoin w.gitRoot sp.path))) =
        Except.ok (SelectedPath.mk sp.path sp.recursive)
      rw [hrel]
    obtain ⟨rels, hrelsmap, hrelspair⟩ := exceptMapM_ok_of_forall hrelok
    have hrelsall : relativizeAll w S = Except.ok rels := by
      unfold relativizeAll
      exact hrelsmap
    have hparse : parsePhase w
        (headerLines ++ selLines ++
          (if !S.isEmpty && !N.isEmpty then [([] : PathC)] else []) ++
          newLines.map (fun ln => commentMarker ++ ln)) = Except.ok rels.toFinset := by
      simp only [parsePhase, hcollect, hfold]
      rw [hrelsall]
      rfl
    rw [hparse]
    have hfinal : rels.toFinset = l.toFinset := by
      apply Finset.ext
      intro a
      simp only [List.mem_toFinset]
      constructor
      · intro ha
        obtain ⟨x, hx, hxa⟩ := forall₂_mem_right hrelspair ha
        obtain ⟨sp, hsp, rfl⟩ := hSmem x hx
        obtain ⟨d, _, _, _, _, _, _, hrel⟩ := hgood sp hsp
        have hcomp : relativizeOne w
            (SelectedPath.mk (pathJoin w.gitRoot sp.path) sp.recursive) =
            Except.ok (SelectedPath.mk sp.path sp.recursive) := by
          show (match w.diff (pathJoin w.gitRoot sp.path) w.gitRoot with
            | some rel => Except.ok (SelectedPath.mk rel sp.recursive)
            | none => Except.error (RecErr.relativizeFailed (pathJoin w.gitRoot sp.path))) =
            Except.ok (SelectedPath.mk sp.path sp.recursive)
          rw [hrel]
        rw [hcomp] at hxa
        have heq : SelectedPath.mk sp.path sp.recursive = a := Except.ok.inj hxa
        rw [← heq]
        exact hsp
      · intro ha
        have hx : SelectedPath.mk (pathJoin w.gitRoot a.path) a.recursive ∈ S := by
          apply hSperm.mem_iff.mpr
          exact List.mem_map_of_mem _ ha
        obtain ⟨y, hy, hxy⟩ := forall₂_mem_left hrelspair hx
        obtain ⟨d, _, _, _, _, _, _, hrel⟩ := hgood a ha
        have hcomp : relativizeOne w
            (SelectedPath.mk (pathJoin w.gitRoot a.path) a.recursive) =
            Except.ok (SelectedPath.mk a.path a.recursive) := by
          show (match w.diff (pathJoin w.gitRoot a.path) w.gitRoot with
            | some rel => Except.ok (SelectedPath.mk rel a.recursive)
            | none => Except.error (RecErr.relativizeFailed (pathJoin w.gitRoot a.path))) =
            Except.ok (SelectedPath.mk a.path a.recursive)
          rw [hrel]
        rw [hcomp] at hxy
        have heq : SelectedPath.mk a.path a.recursive = y := Except.ok.inj hxy
        rw [← heq] at hy
        exact hy
    rw [hfinal]

/-- Echo-editor world over repository `/r` in which the relative paths `a`
and `b` both canonicalize to the same directory `/r/d` (e.g. one is a symlink
to the other), while `d` canonicalizes to itself. -/
def w5 : ReconWorld :=
  { canon := fun p =>
      if p = chars "a" ∨ p = chars "b" ∨ p = chars "d" then some (chars "/r/d") else none,
    walkDirs := fun _ => [],
    diff := fun p base =>
      if base = chars "/r" then
        if p = chars "/r/a" then some (chars "a")
        else if p = chars "/r/b" then some (chars "b")
        else if p = chars "/r/d" then some (chars "d")
        else none
      else none,
    cwd := chars "/r",
    gitRoot := chars "/r",
    editor := fun b => b }

/-- C5 counterexample: with an echo editor and a fixed filesystem, the first
reconciliation of the persisted selection `{a, *b}` yields the selection
`{d, *d}` (both lines canonicalize to `/r/d`), and reconciling that output
again yields `{*d}` — the map collapses the two aliased entries — so the
second run's output differs from the first run's. -/
theorem reconciliation_echo_not_idempotent :
    interactiveSelection w5 []
        [SelectedPath.mk (chars "a") true, SelectedPath.mk (chars "b") false] =
      Except.ok
        (([SelectedPath.mk (chars "d") true, SelectedPath.mk (chars "d") false] :
          List SelectedPath).toFinset) ∧
      ([SelectedPath.mk (chars "d") true, SelectedPath.mk (chars "d") false] :
        List SelectedPath).Nodup ∧
      interactiveSelection w5 []
          [SelectedPath.mk (chars "d") true, SelectedPath.mk (chars "d") false] =
        Except.ok (([SelectedPath.mk (chars "d") false] : List SelectedPath).toFinset) ∧
      (([SelectedPath.mk (chars "d") false] : List SelectedPath).toFinset ≠
        ([SelectedPath.mk (chars "d") true, SelectedPath.mk (chars "d") false] :
          List SelectedPath).toFinset) := by
  refine ⟨by decide, by decide, by decide, by decide⟩

/-- C5 witness for the amended theorem: the coherent one-entry selection `d`
is a fixed point of reconciliation in the same world. -/
theorem reconciliation_echo_fixed_point_witness :
    interactiveSelection w5 [] [SelectedPath.mk (chars "d") true] =
      Except.ok (([SelectedPath.mk (chars "d") true] : List SelectedPath).toFinset) :=
  reconciliation_echo_fixed_point w5 [] [SelectedPath.mk (chars "d") true] []
    rfl (by decide)
    (fun sp hsp => by
      rw [List.mem_singleton] at hsp
      subst hsp
      exact ⟨chars "d", by decide, by decide, by decide, by decide, by decide, by decide,
        by decide⟩)
    rfl
    (fun p hp => by cases hp)
